import Mathlib

/-
Verification development for the `concurrency::ThreadPool` repository
(thread_pool.h / thread_pool.cpp and its two revisions of the same
translation unit).

The pool state is embedded shallowly: machine state that is mutated under a
mutex is updated by a single atomic step of a labelled transition relation,
one label per lock-protected region or per atomic access of the source.
Tasks are identified by the ghost submission index `nextTask` (tasks are
numbered in `addTask` order); `cleared` and `executed` are ghost history
variables recording how many tasks `clear()` discarded and which tasks have
finished `run()`.

Two worker-loop semantics are embedded:
 - `Step`  follows the final revision (`ThreadPool::spin` with
   `thread_spin_cv_.wait(lk, pred)` followed by `if(alive_)`, and `stop`
   writing `alive_` under the queue lock),
 - `Step0` follows the intermediate revision (`ThreadPool::spin` with the
   same wait followed by `if(!tasks_pool_.empty())`, and `stop` writing
   `alive_` without the queue lock).
The two revisions also differ in how `stop`'s flag write is ordered
against a waiter entering the wait.  In the final revision the write is
taken under the queue lock, and a waiter holds that lock from its
predicate evaluation until `wait` atomically releases it and blocks, so
the write and the `notify_all` cannot land between the evaluation and the
block: `Step` fuses the two into one atomic step.  In the intermediate
revision the write is unguarded, so the flag flip and the `notify_all`
can land in exactly that window: `Step0` splits the wait into the
predicate-evaluation step and the block step, with notifications
delivered only to already blocked workers.  The remaining member
functions (`start`, `joinAll`, `addTask`, `clear`, `clean_up`, the
counters) are common and embedded once.  The choice which blocked waiter
a `notify_one` releases is resolved deterministically to the first
blocked waiter; which one is chosen is irrelevant to every property
proved below.
-/

namespace ThreadPoolModel

/-- Control state of one worker thread executing `ThreadPool::spin`.
`atLoop`: about to evaluate `while(alive_)`.
`waiting`: inside `thread_spin_cv_.wait(lk, ...)`, about to evaluate the
predicate under the lock.
`parking`: evaluated the wait predicate false (still holding the lock),
committed to block but not yet in the condition variable's wait set — the
window into which the intermediate revision's unguarded `stop` can race;
unreachable under the final revision's semantics, whose lock-guarded flag
write makes the window unobservable.
`parked b`: blocked in the wait; `b` records whether a notification has
been delivered and not yet consumed.
`claimed t`: popped task `t`, lock released, running counter not yet
incremented.
`executing t`: running counter incremented, `t->run()` in progress.
`postRun t`: `t->run()` returned, running counter not yet decremented.
`terminated`: the thread left the loop and returned. -/
inductive WSt where
  | atLoop
  | waiting
  | parking
  | parked (ntf : Bool)
  | claimed (t : Nat)
  | executing (t : Nat)
  | postRun (t : Nat)
  | terminated
deriving DecidableEq

/-- Shallow embedding of a `ThreadPool` object together with the control
states of every thread it ever spawned.  `threadsCount` is the immutable
`threads_count_`; `alive` is `alive_`; `queue` is `tasks_pool_` holding
ghost task indices in queue order; `running` is `running_tasks_count_`;
`threadsPool` is `threads_pool_` as the list of indices (into `workers`)
of the spawned, not yet joined threads; `workers` holds the control state
of every thread ever spawned, indexed by spawn order.  `nextTask`,
`cleared` and `executed` are ghost history variables. -/
structure St where
  threadsCount : Nat
  alive : Bool
  queue : List Nat
  running : Nat
  threadsPool : List Nat
  workers : List WSt
  nextTask : Nat
  cleared : Nat
  executed : List Nat
deriving DecidableEq

/-- Task held by a worker in its local slot (popped, not yet finished and
accounted): the argument of `claimed`, `executing` or `postRun`. -/
def slotTask : WSt → Option Nat
  | .claimed t => some t
  | .executing t => some t
  | .postRun t => some t
  | _ => none

/-- Effect of `thread_spin_cv_.notify_all()` on one blocked waiter: the
notification is delivered.  Non-parked workers are unaffected — in
particular a worker still in the `parking` window is not yet in the wait
set and misses the notification. -/
def wakeAll : WSt → WSt
  | .parked _ => .parked true
  | w => w

/-- Effect of `thread_spin_cv_.notify_one()`: deliver a notification to the
first blocked waiter that has none pending, if any. -/
def notifyOne : List WSt → List WSt
  | [] => []
  | w :: ws =>
    match w with
    | .parked false => .parked true :: ws
    | _ => w :: notifyOne ws

def isClaimedW : WSt → Bool
  | .claimed _ => true
  | _ => false

def isExecW : WSt → Bool
  | .executing _ => true
  | _ => false

def isPostW : WSt → Bool
  | .postRun _ => true
  | _ => false

/-- Number of workers between the pop and the running-counter increment. -/
def cClaimed (s : St) : Nat := s.workers.countP isClaimedW

/-- Number of workers whose task is mid-`run()`. -/
def cExec (s : St) : Nat := s.workers.countP isExecW

/-- Number of workers between `run()` returning and the decrement. -/
def cPost (s : St) : Nat := s.workers.countP isPostW

/-- State built by `ThreadPool::ThreadPool(threads_count)`:
`alive_(false)`, `running_tasks_count_(0)`, empty queue, no threads. -/
def initSt (n : Nat) : St :=
  { threadsCount := n, alive := false, queue := [], running := 0
    threadsPool := [], workers := [], nextTask := 0, cleared := 0
    executed := [] }

/-- Embedding of `ThreadPool::clean_up()`: joining has no effect on the
pool data beyond emptying `threads_pool_`; its blocking is the enabledness
condition of the steps that invoke it. -/
def clean_up (s : St) : St := { s with threadsPool := [] }

/-- Spawn loop of `ThreadPool::start()`: push `threads_count_` fresh
threads, each starting `spin` at the loop head. -/
def spawnN (s : St) : St :=
  { s with
    workers := s.workers ++ List.replicate s.threadsCount .atLoop
    threadsPool :=
      s.threadsPool ++ (List.range s.threadsCount).map (· + s.workers.length) }

/-- Embedding of `ThreadPool::start()`: no-op when `alive_`; otherwise
`clean_up` when `threads_pool_` is non-empty, then `alive_ = true`, then
the spawn loop. -/
def startF (s : St) : St :=
  if s.alive then s
  else spawnN { (if s.threadsPool = [] then s else clean_up s) with alive := true }

/-- Embedding of `ThreadPool::joinAll()`: `clean_up` when not alive and
`threads_pool_` is non-empty, no-op otherwise. -/
def joinAllF (s : St) : St :=
  if s.alive = false ∧ s.threadsPool ≠ [] then clean_up s else s

/-- Labels of the atomic steps: one per lock-protected region or atomic
access of the source, with the acting worker index (and popped task). -/
inductive Lbl where
  | addTask
  | clear
  | stopFlag
  | notifyAll
  | join
  | joinAll
  | start
  | wLoopExit (i : Nat)
  | wLoopEnter (i : Nat)
  | wClaim (i t : Nat)
  | wNotAlive (i : Nat)
  | wPark (i : Nat)
  | wBlock (i : Nat)
  | wWake (i : Nat)
  | wInc (i t : Nat)
  | wRun (i t : Nat)
  | wDec (i t : Nat)
deriving DecidableEq

/-- Atomic steps of the final revision.  Client steps: `addTask` pushes the
next ghost index and, when `alive_`, performs `notify_one`; `clear` swaps
in an empty queue; `stopFlag` is the lock-guarded `alive_ = false` of
`stop`; `notifyAll` is `stop`'s `notify_all`; `join` is the `clean_up`
call of a Sync `stop`, enabled once every unjoined thread terminated;
`joinAll` and `start` are the corresponding member functions (their
`clean_up`, when taken, has the same enabledness).  Worker steps follow
`ThreadPool::spin` of the final revision: the loop test on `alive_`, the
wait-predicate evaluation under the lock fused with the `if(alive_)`
branch, parking when the predicate is false, waking on a delivered
notification, then increment, `run()`, decrement. -/
inductive Step : Lbl → St → St → Prop where
  | addTask (s : St) :
      Step .addTask s
        { s with
          queue := s.queue ++ [s.nextTask]
          nextTask := s.nextTask + 1
          workers := if s.alive then notifyOne s.workers else s.workers }
  | clear (s : St) :
      Step .clear s { s with queue := [], cleared := s.cleared + s.queue.length }
  | stopFlag (s : St) :
      Step .stopFlag s { s with alive := false }
  | notifyAll (s : St) :
      Step .notifyAll s { s with workers := s.workers.map wakeAll }
  | join (s : St) :
      (∀ i ∈ s.threadsPool, s.workers[i]? = some WSt.terminated) →
      Step .join s (clean_up s)
  | joinAll (s : St) :
      (s.alive = false → ∀ i ∈ s.threadsPool, s.workers[i]? = some WSt.terminated) →
      Step .joinAll s (joinAllF s)
  | start (s : St) :
      (s.alive = false → ∀ i ∈ s.threadsPool, s.workers[i]? = some WSt.terminated) →
      Step .start s (startF s)
  | wLoopExit (s : St) (i : Nat) :
      s.workers[i]? = some WSt.atLoop → s.alive = false →
      Step (.wLoopExit i) s { s with workers := s.workers.set i .terminated }
  | wLoopEnter (s : St) (i : Nat) :
      s.workers[i]? = some WSt.atLoop → s.alive = true →
      Step (.wLoopEnter i) s { s with workers := s.workers.set i .waiting }
  | wClaim (s : St) (i t : Nat) (rest : List Nat) :
      s.workers[i]? = some WSt.waiting → s.alive = true → s.queue = t :: rest →
      Step (.wClaim i t) s
        { s with queue := rest, workers := s.workers.set i (.claimed t) }
  | wNotAlive (s : St) (i : Nat) :
      s.workers[i]? = some WSt.waiting → s.alive = false →
      Step (.wNotAlive i) s { s with workers := s.workers.set i .atLoop }
  | wPark (s : St) (i : Nat) :
      s.workers[i]? = some WSt.waiting → s.alive = true → s.queue = [] →
      Step (.wPark i) s { s with workers := s.workers.set i (.parked false) }
  | wWake (s : St) (i : Nat) :
      s.workers[i]? = some (WSt.parked true) →
      Step (.wWake i) s { s with workers := s.workers.set i .waiting }
  | wInc (s : St) (i t : Nat) :
      s.workers[i]? = some (WSt.claimed t) →
      Step (.wInc i t) s
        { s with running := s.running + 1, workers := s.workers.set i (.executing t) }
  | wRun (s : St) (i t : Nat) :
      s.workers[i]? = some (WSt.executing t) →
      Step (.wRun i t) s
        { s with executed := s.executed ++ [t], workers := s.workers.set i (.postRun t) }
  | wDec (s : St) (i t : Nat) :
      s.workers[i]? = some (WSt.postRun t) →
      Step (.wDec i t) s
        { s with running := s.running - 1, workers := s.workers.set i .atLoop }

/-- Reachability through any interleaving of the atomic steps. -/
def Reach (a b : St) : Prop :=
  Relation.ReflTransGen (fun x y => ∃ l, Step l x y) a b

/-- Reachability through steps other than `start` (the interleavings that
can occur while the controlling thread is inside `stop`). -/
def MidReach (a b : St) : Prop :=
  Relation.ReflTransGen (fun x y => ∃ l, l ≠ Lbl.start ∧ Step l x y) a b

/-- Atomic steps of the intermediate revision.  Its `spin` branches on
`if(!tasks_pool_.empty())` after the wait: a worker that leaves the wait
with a non-empty queue pops regardless of `alive_`, and falls back to the
loop test only when the queue is empty (hence `alive_` false).  Its
`stop` writes `alive_` without the queue lock, so the flag write and the
`notify_all` can land between a waiter's predicate evaluation and its
entry into the wait set; the wait is therefore split into `wPark` (the
predicate evaluates false, the worker commits to block) and `wBlock` (the
worker enters the wait set), and `wakeAll`/`notifyOne` deliver only to
already blocked (`parked`) workers.  While a worker sits in the `parking`
window it still holds the queue lock, so in a real execution only
lock-free actions — the unguarded flag store and the notifications —
can occur there; the relation does not enforce this, which only admits
more interleavings than the source.  All other steps are as in the final
revision. -/
inductive Step0 : Lbl → St → St → Prop where
  | addTask (s : St) :
      Step0 .addTask s
        { s with
          queue := s.queue ++ [s.nextTask]
          nextTask := s.nextTask + 1
          workers := if s.alive then notifyOne s.workers else s.workers }
  | clear (s : St) :
      Step0 .clear s { s with queue := [], cleared := s.cleared + s.queue.length }
  | stopFlag (s : St) :
      Step0 .stopFlag s { s with alive := false }
  | notifyAll (s : St) :
      Step0 .notifyAll s { s with workers := s.workers.map wakeAll }
  | join (s : St) :
      (∀ i ∈ s.threadsPool, s.workers[i]? = some WSt.terminated) →
      Step0 .join s (clean_up s)
  | joinAll (s : St) :
      (s.alive = false → ∀ i ∈ s.threadsPool, s.workers[i]? = some WSt.terminated) →
      Step0 .joinAll s (joinAllF s)
  | start (s : St) :
      (s.alive = false → ∀ i ∈ s.threadsPool, s.workers[i]? = some WSt.terminated) →
      Step0 .start s (startF s)
  | wLoopExit (s : St) (i : Nat) :
      s.workers[i]? = some WSt.atLoop → s.alive = false →
      Step0 (.wLoopExit i) s { s with workers := s.workers.set i .terminated }
  | wLoopEnter (s : St) (i : Nat) :
      s.workers[i]? = some WSt.atLoop → s.alive = true →
      Step0 (.wLoopEnter i) s { s with workers := s.workers.set i .waiting }
  | wClaim (s : St) (i t : Nat) (rest : List Nat) :
      s.workers[i]? = some WSt.waiting → s.queue = t :: rest →
      Step0 (.wClaim i t) s
        { s with queue := rest, workers := s.workers.set i (.claimed t) }
  | wNotAlive (s : St) (i : Nat) :
      s.workers[i]? = some WSt.waiting → s.alive = false → s.queue = [] →
      Step0 (.wNotAlive i) s { s with workers := s.workers.set i .atLoop }
  | wPark (s : St) (i : Nat) :
      s.workers[i]? = some WSt.waiting → s.alive = true → s.queue = [] →
      Step0 (.wPark i) s { s with workers := s.workers.set i .parking }
  | wBlock (s : St) (i : Nat) :
      s.workers[i]? = some WSt.parking →
      Step0 (.wBlock i) s { s with workers := s.workers.set i (.parked false) }
  | wWake (s : St) (i : Nat) :
      s.workers[i]? = some (WSt.parked true) →
      Step0 (.wWake i) s { s with workers := s.workers.set i .waiting }
  | wInc (s : St) (i t : Nat) :
      s.workers[i]? = some (WSt.claimed t) →
      Step0 (.wInc i t) s
        { s with running := s.running + 1, workers := s.workers.set i (.executing t) }
  | wRun (s : St) (i t : Nat) :
      s.workers[i]? = some (WSt.executing t) →
      Step0 (.wRun i t) s
        { s with executed := s.executed ++ [t], workers := s.workers.set i (.postRun t) }
  | wDec (s : St) (i t : Nat) :
      s.workers[i]? = some (WSt.postRun t) →
      Step0 (.wDec i t) s
        { s with running := s.running - 1, workers := s.workers.set i .atLoop }

/-- Reachability for the intermediate revision. -/
def Reach0 (a b : St) : Prop :=
  Relation.ReflTransGen (fun x y => ∃ l, Step0 l x y) a b

/-- No worker in the list currently holds task `t` in its local slot. -/
def SlotFree (ws : List WSt) (t : Nat) : Prop :=
  ∀ (i : Nat) (st : WSt), ws[i]? = some st → slotTask st ≠ some t

/-- Inductive invariant of the final-revision system.  Conjuncts:
1. the running counter counts exactly the workers between increment and
   decrement;
2. every submitted task is in exactly one of: queue, a claimed or
   executing slot, the executed history, or the cleared tally;
3. every spawned thread outside `threads_pool_` has terminated;
4. the queue is strictly increasing in submission order;
5.-7. every queued, slot-held, or executed task index was submitted;
8. no queued task is simultaneously held by a worker or already executed. -/
def Inv (s : St) : Prop :=
  s.running = cExec s + cPost s ∧
  s.queue.length + cClaimed s + cExec s + s.executed.length + s.cleared
      = s.nextTask ∧
  (∀ (j : Nat) (st : WSt), s.workers[j]? = some st → j ∉ s.threadsPool →
      st = WSt.terminated) ∧
  List.Pairwise (· < ·) s.queue ∧
  (∀ t ∈ s.queue, t < s.nextTask) ∧
  (∀ (j : Nat) (st : WSt), s.workers[j]? = some st → ∀ t, slotTask st = some t →
      t < s.nextTask) ∧
  (∀ t ∈ s.executed, t < s.nextTask) ∧
  (∀ t ∈ s.queue, SlotFree s.workers t ∧ t ∉ s.executed)

/-- Task `t` was submitted but is not in the queue, in no worker's local
slot, and not in the executed history.  `clear()` puts every discarded
task in this situation, and no step can take a task out of it. -/
def Untouched (t : Nat) (s : St) : Prop :=
  t < s.nextTask ∧ t ∉ s.queue ∧ SlotFree s.workers t ∧ t ∉ s.executed

/-- Embedding of `ThreadPool::STATUS`. -/
inductive STATUS where
  | UP
  | DOWN
deriving DecidableEq

/-- Embedding of `ThreadPool::status()`: `alive_ ? UP : DOWN`. -/
def status (s : St) : STATUS := if s.alive then .UP else .DOWN

/-- Embedding of `ThreadPool::pending()`: the queue length under the
lock. -/
def pending (s : St) : Nat := s.queue.length

/-- Embedding of `ThreadPool::is_pending()`: `!tasks_pool_.empty()`. -/
def is_pending (s : St) : Bool := !s.queue.isEmpty

/-- Embedding of `ThreadPool::is_running()`: the running counter read as a
boolean. -/
def is_running (s : St) : Bool := s.running != 0

/-- Control state of a thread executing `ThreadPool::waitForIdle()`:
about to read `is_pending()` (`p1`), saw it false and about to read
`is_running()` (`p2`), or returned (`ret`). -/
inductive OSt where
  | p1
  | p2
  | ret
deriving DecidableEq

/-- Steps of the pool composed with one observer thread executing
`waitForIdle()`: `while(is_pending() || is_running()) yield;`.  The two
counter reads are separate lock-protected steps, exactly as in the
source. -/
inductive CStep : St × OSt → St × OSt → Prop where
  | pool {s s' : St} (o : OSt) (l : Lbl) :
      Step l s s' → CStep (s, o) (s', o)
  | pendTrue (s : St) : is_pending s = true → CStep (s, .p1) (s, .p1)
  | pendFalse (s : St) : is_pending s = false → CStep (s, .p1) (s, .p2)
  | runTrue (s : St) : is_running s = true → CStep (s, .p2) (s, .p1)
  | runFalse (s : St) : is_running s = false → CStep (s, .p2) (s, .ret)

/-- Pool state after `ThreadPool(1)` followed by `start()`: one worker at
the loop head. -/
def trState1 : St :=
  { threadsCount := 1, alive := true, queue := [], running := 0
    threadsPool := [0], workers := [WSt.atLoop], nextTask := 0, cleared := 0
    executed := [] }

/-- After `addTask` of task `0` on `trState1`. -/
def trState2 : St := { trState1 with queue := [0], nextTask := 1 }

/-- After the worker passes the loop test and enters the wait. -/
def trState3 : St := { trState2 with workers := [WSt.waiting] }

/-- After the worker pops task `0` (final-revision claim). -/
def c2sClaim : St := { trState3 with queue := [], workers := [WSt.claimed 0] }

/-- `trState3` after `stop`'s flag write: liveness false, task `0` still
queued, worker still in the wait. -/
def c1s4 : St := { trState3 with alive := false }

/-- State after the intermediate revision's worker, woken with the flag
false and the queue non-empty, pops task `0` anyway. -/
def c1s5 : St := { c1s4 with queue := [], workers := [WSt.claimed 0] }

/-- Freshly constructed pool with zero threads, observer about to enter
`waitForIdle()`. -/
def c3sA : St := initSt 0

/-- `c3sA` after a concurrent `addTask` of task `0`. -/
def c3sB : St := { c3sA with queue := [0], nextTask := 1 }

/-- `trState1`'s worker after entering the wait: about to evaluate the
predicate. -/
def c5sWait : St := { trState1 with workers := [WSt.waiting] }

/-- The worker evaluated the predicate false (flag true, queue empty) and
committed to block: the race window of the intermediate revision's
unguarded `stop`. -/
def c5sPark : St := { trState1 with workers := [WSt.parking] }

/-- `stop`'s unguarded flag write landed inside the window; the pool is
Down but the worker is still not in the wait set. -/
def c5sDown : St := { c5sPark with alive := false }

/-- The worker finally blocks, after the `notify_all` already fired: it is
parked with no delivered notification while the pool is Down. -/
def c5sStuck : St := { c5sDown with workers := [WSt.parked false] }

/-- Setting an index whose old entry is known changes `countP` by the
difference of the two entries' contributions. -/
theorem countP_set_eq {α : Type} (p : α → Bool) :
    ∀ (l : List α) (i : Nat) (a b : α), l[i]? = some b →
    (l.set i a).countP p + (if p b then 1 else 0) =
      l.countP p + (if p a then 1 else 0)
  | [], i, _, _, h => by simp at h
  | c :: l, 0, a, b, h => by
      simp only [List.getElem?_cons_zero, Option.some.injEq] at h
      subst h
      simp only [List.set_cons_zero, List.countP_cons]
      by_cases hpa : p a = true <;> by_cases hpc : p c = true <;>
        simp [hpa, hpc]
  | c :: l, i + 1, a, b, h => by
      simp only [List.getElem?_cons_succ] at h
      have ih := countP_set_eq p l i a b h
      simp only [List.set_cons_succ, List.countP_cons]
      by_cases hpc : p c = true <;> simp [hpc] <;> omega

/-- Replacing an entry by one with the same `p`-value leaves `countP`
unchanged. -/
theorem countP_set_same {α : Type} (p : α → Bool) (l : List α) (i : Nat)
    (a b : α) (h : l[i]? = some b) (hab : p a = p b) :
    (l.set i a).countP p = l.countP p := by
  have h2 := countP_set_eq p l i a b h
  rw [hab] at h2
  omega

/-- Reading any index of a one-point update: either the updated index with
the new entry, or an untouched index. -/
theorem getElem_set_inv {α : Type} {l : List α} {i j : Nat} {a st : α}
    (h : (l.set i a)[j]? = some st) :
    (j = i ∧ st = a) ∨ (j ≠ i ∧ l[j]? = some st) := by
  by_cases hij : j = i
  · subst hij
    left
    refine ⟨rfl, ?_⟩
    have hlen : j < l.length := by
      have h2 := (List.getElem?_eq_some.mp h).1
      simpa [List.length_set] using h2
    rw [List.getElem?_set_self hlen] at h
    exact (Option.some.inj h).symm
  · right
    exact ⟨hij, by rwa [List.getElem?_set_ne (Ne.symm hij)] at h⟩

/-- A `notify_one` either finds no blocked waiter and changes nothing, or
delivers a notification to exactly one blocked waiter. -/
theorem notifyOne_spec : ∀ ws : List WSt,
    notifyOne ws = ws ∨
      ∃ i, ws[i]? = some (WSt.parked false) ∧
        notifyOne ws = ws.set i (WSt.parked true)
  | [] => Or.inl rfl
  | w :: ws => by
      match hw : w with
      | .parked false => exact Or.inr ⟨0, by simp, rfl⟩
      | .atLoop | .waiting | .parking | .parked true | .claimed _
      | .executing _ | .postRun _ | .terminated =>
        rcases notifyOne_spec ws with h | ⟨i, hi, hset⟩
        · exact Or.inl (by simp [notifyOne, h])
        · exact Or.inr ⟨i + 1, by simpa using hi, by simp [notifyOne, hset]⟩

theorem wakeAll_slot (w : WSt) : slotTask (wakeAll w) = slotTask w := by
  cases w <;> rfl

theorem wakeAll_claimed (w : WSt) : isClaimedW (wakeAll w) = isClaimedW w := by
  cases w <;> rfl

theorem wakeAll_exec (w : WSt) : isExecW (wakeAll w) = isExecW w := by
  cases w <;> rfl

theorem wakeAll_post (w : WSt) : isPostW (wakeAll w) = isPostW w := by
  cases w <;> rfl

theorem wakeAll_term (w : WSt) :
    wakeAll w = WSt.terminated ↔ w = WSt.terminated := by
  cases w <;> simp [wakeAll]

theorem countP_map_wakeAll (p : WSt → Bool) (hp : ∀ w, p (wakeAll w) = p w) :
    ∀ l : List WSt, (l.map wakeAll).countP p = l.countP p
  | [] => rfl
  | w :: l => by
      simp [List.countP_cons, countP_map_wakeAll p hp l, hp w]

theorem inv_init (n : Nat) : Inv (initSt n) := by
  refine ⟨rfl, rfl, ?_, ?_, ?_, ?_, ?_, ?_⟩ <;> simp [initSt, cExec, cPost,
    cClaimed, SlotFree]

theorem term_set_pres {ws : List WSt} {pool : List Nat} {i : Nat} {a b : WSt}
    (hb : ws[i]? = some b)
    (hTerm : ∀ (j : Nat) (st : WSt), ws[j]? = some st → j ∉ pool →
        st = WSt.terminated)
    (hbne : b ≠ WSt.terminated) :
    ∀ (j : Nat) (st : WSt), (ws.set i a)[j]? = some st → j ∉ pool →
      st = WSt.terminated := by
  intro j st hj hnp
  rcases getElem_set_inv hj with ⟨hje, _⟩ | ⟨_, hold⟩
  · subst hje
    exact absurd (hTerm j b hb hnp) hbne
  · exact hTerm j st hold hnp

theorem slotLt_set_pres {ws : List WSt} {i : Nat} {a : WSt} {N : Nat}
    (hS : ∀ (j : Nat) (st : WSt), ws[j]? = some st → ∀ t, slotTask st = some t →
        t < N)
    (ha : ∀ t, slotTask a = some t → t < N) :
    ∀ (j : Nat) (st : WSt), (ws.set i a)[j]? = some st → ∀ t,
      slotTask st = some t → t < N := by
  intro j st hj t hslot
  rcases getElem_set_inv hj with ⟨_, hst⟩ | ⟨_, hold⟩
  · subst hst
    exact ha t hslot
  · exact hS j st hold t hslot

theorem slotFree_set {ws : List WSt} {i : Nat} {a : WSt} {u : Nat}
    (hfree : SlotFree ws u) (ha : slotTask a ≠ some u) :
    SlotFree (ws.set i a) u := by
  intro j st hj
  rcases getElem_set_inv hj with ⟨_, hst⟩ | ⟨_, hold⟩
  · subst hst
    exact ha
  · exact hfree j st hold

theorem notifyOne_pointwise (ws : List WSt) (j : Nat) (st : WSt)
    (h : (notifyOne ws)[j]? = some st) :
    ws[j]? = some st ∨
      (st = WSt.parked true ∧ ws[j]? = some (WSt.parked false)) := by
  rcases notifyOne_spec ws with hno | ⟨i, hi, hset⟩
  · rw [hno] at h
    exact Or.inl h
  · rw [hset] at h
    rcases getElem_set_inv h with ⟨hje, hst⟩ | ⟨_, hold⟩
    · subst hje
      exact Or.inr ⟨hst, hi⟩
    · exact Or.inl hold

theorem notifyOne_counts (p : WSt → Bool)
    (hp : p (WSt.parked true) = p (WSt.parked false)) (ws : List WSt) :
    (notifyOne ws).countP p = ws.countP p := by
  rcases notifyOne_spec ws with hno | ⟨i, hi, hset⟩
  · rw [hno]
  · rw [hset]
    exact countP_set_same p ws i _ _ hi hp

theorem getElem_append_repl {ws : List WSt} {n j : Nat} {st a : WSt}
    (h : (ws ++ List.replicate n a)[j]? = some st) :
    (j < ws.length ∧ ws[j]? = some st) ∨
      (st = a ∧ ws.length ≤ j ∧ j - ws.length < n) := by
  rw [List.getElem?_append] at h
  by_cases hj : j < ws.length
  · rw [if_pos hj] at h
    exact Or.inl ⟨hj, h⟩
  · rw [if_neg hj] at h
    rw [List.getElem?_replicate] at h
    by_cases hjn : j - ws.length < n
    · rw [if_pos hjn] at h
      exact Or.inr ⟨(Option.some.inj h).symm, Nat.le_of_not_lt hj, hjn⟩
    · rw [if_neg hjn] at h
      exact absurd h (by simp)

/-- Both branches of `addTask` preserve the invariant: the worker list is
either untouched or has one blocked waiter notified. -/
theorem inv_addTask_core {s : St} (ws' : List WSt) (hI : Inv s)
    (hcc : ws'.countP isClaimedW = cClaimed s)
    (hce : ws'.countP isExecW = cExec s)
    (hcp : ws'.countP isPostW = cPost s)
    (hpt : ∀ (j : Nat) (st : WSt), ws'[j]? = some st →
        s.workers[j]? = some st ∨
          (st = WSt.parked true ∧ s.workers[j]? = some (WSt.parked false))) :
    Inv { s with
          queue := s.queue ++ [s.nextTask]
          nextTask := s.nextTask + 1
          workers := ws' } := by
  obtain ⟨hRun, hCount, hTerm, hSort, hQLt, hSLt, hELt, hDisj⟩ := hI
  refine ⟨?_, ?_, ?_, ?_, ?_, ?_, ?_, ?_⟩
  · show s.running = ws'.countP isExecW + ws'.countP isPostW
    rw [hce, hcp]
    exact hRun
  · show (s.queue ++ [s.nextTask]).length + ws'.countP isClaimedW +
        ws'.countP isExecW + s.executed.length + s.cleared = s.nextTask + 1
    rw [hcc, hce]
    simp only [List.length_append, List.length_cons, List.length_nil]
    omega
  · intro j st hj hnp
    rcases hpt j st hj with hold | ⟨hst, hold⟩
    · exact hTerm j st hold hnp
    · exact absurd (hTerm j _ hold hnp) (by simp)
  · refine List.pairwise_append.mpr ⟨hSort, by simp, ?_⟩
    intro a ha b hb
    simp only [List.mem_singleton] at hb
    subst hb
    exact hQLt a ha
  · intro t ht
    rcases List.mem_append.mp ht with h1 | h1
    · exact Nat.lt_succ_of_lt (hQLt t h1)
    · simp only [List.mem_singleton] at h1
      subst h1
      exact Nat.lt_succ_self _
  · intro j st hj t hslot
    rcases hpt j st hj with hold | ⟨hst, hold⟩
    · exact Nat.lt_succ_of_lt (hSLt j st hold t hslot)
    · subst hst
      simp [slotTask] at hslot
  · intro t ht
    exact Nat.lt_succ_of_lt (hELt t ht)
  · intro t ht
    rcases List.mem_append.mp ht with h1 | h1
    · obtain ⟨hfree, hex⟩ := hDisj t h1
      refine ⟨?_, hex⟩
      intro j st hj
      rcases hpt j st hj with hold | ⟨hst, hold⟩
      · exact hfree j st hold
      · subst hst
        simp [slotTask]
    · simp only [List.mem_singleton] at h1
      subst h1
      refine ⟨?_, ?_⟩
      · intro j st hj hc
        rcases hpt j st hj with hold | ⟨hst, hold⟩
        · exact absurd (hSLt j st hold _ hc) (Nat.lt_irrefl _)
        · subst hst
          simp [slotTask] at hc
      · intro hc
        exact absurd (hELt _ hc) (Nat.lt_irrefl _)

/-- A worker step that rewrites one control slot to a state holding no
task, with unchanged claim, execute and post counts, preserves the
invariant. -/
theorem inv_set_simple {s : St} {i : Nat} (a b : WSt)
    (hb : s.workers[i]? = some b) (hI : Inv s)
    (hca : isClaimedW a = isClaimedW b) (hea : isExecW a = isExecW b)
    (hpa : isPostW a = isPostW b) (hsa : slotTask a = none)
    (hbne : b ≠ WSt.terminated) :
    Inv { s with workers := s.workers.set i a } := by
  obtain ⟨hRun, hCount, hTerm, hSort, hQLt, hSLt, hELt, hDisj⟩ := hI
  refine ⟨?_, ?_, term_set_pres hb hTerm hbne, hSort, hQLt, ?_, hELt, ?_⟩
  · show s.running = (s.workers.set i a).countP isExecW +
        (s.workers.set i a).countP isPostW
    rw [countP_set_same isExecW s.workers i a b hb hea,
      countP_set_same isPostW s.workers i a b hb hpa]
    exact hRun
  · show s.queue.length + (s.workers.set i a).countP isClaimedW +
        (s.workers.set i a).countP isExecW + s.executed.length + s.cleared
          = s.nextTask
    rw [countP_set_same isClaimedW s.workers i a b hb hca,
      countP_set_same isExecW s.workers i a b hb hea]
    exact hCount
  · refine slotLt_set_pres hSLt ?_
    intro t h2
    rw [hsa] at h2
    exact absurd h2 (by simp)
  · intro t ht
    obtain ⟨hf, he⟩ := hDisj t ht
    refine ⟨slotFree_set hf ?_, he⟩
    rw [hsa]
    simp

/-- The `clean_up` of a set of terminated threads preserves the
invariant. -/
theorem inv_clean_up {s : St} (hI : Inv s)
    (hterm : ∀ i ∈ s.threadsPool, s.workers[i]? = some WSt.terminated) :
    Inv (clean_up s) := by
  obtain ⟨hRun, hCount, hTerm, hSort, hQLt, hSLt, hELt, hDisj⟩ := hI
  refine ⟨hRun, hCount, ?_, hSort, hQLt, hSLt, hELt, hDisj⟩
  intro j st hj _
  by_cases hjp : j ∈ s.threadsPool
  · have h2 := hterm j hjp
    have hj2 : s.workers[j]? = some st := hj
    rw [hj2] at h2
    exact Option.some.inj h2
  · exact hTerm j st hj hjp

/-- The spawn phase of `start` from a state with no unjoined thread
preserves the invariant. -/
theorem inv_spawn_core (s : St) (hpool : s.threadsPool = []) (hI : Inv s) :
    Inv (spawnN { s with alive := true }) := by
  obtain ⟨hRun, hCount, hTerm, hSort, hQLt, hSLt, hELt, hDisj⟩ := hI
  have hAllT : ∀ (j : Nat) (st : WSt), s.workers[j]? = some st →
      st = WSt.terminated := by
    intro j st hj
    exact hTerm j st hj (by rw [hpool]; simp)
  refine ⟨?_, ?_, ?_, hSort, hQLt, ?_, hELt, ?_⟩
  · show s.running =
        (s.workers ++ List.replicate s.threadsCount WSt.atLoop).countP isExecW +
        (s.workers ++ List.replicate s.threadsCount WSt.atLoop).countP isPostW
    rw [List.countP_append, List.countP_append, List.countP_replicate,
      List.countP_replicate]
    simpa using hRun
  · show s.queue.length +
        (s.workers ++ List.replicate s.threadsCount WSt.atLoop).countP isClaimedW +
        (s.workers ++ List.replicate s.threadsCount WSt.atLoop).countP isExecW +
        s.executed.length + s.cleared = s.nextTask
    rw [List.countP_append, List.countP_append, List.countP_replicate,
      List.countP_replicate]
    simpa using hCount
  · intro j st hj hnp
    rcases getElem_append_repl hj with ⟨_, hold⟩ | ⟨_, hge, hlt2⟩
    · exact hAllT j st hold
    · exfalso
      apply hnp
      show j ∈ s.threadsPool ++
        (List.range s.threadsCount).map (· + s.workers.length)
    -- the new thread indices cover every appended worker slot
      rw [hpool]
      simp only [List.nil_append, List.mem_map, List.mem_range]
      have hge2 : s.workers.length ≤ j := hge
      have hlt3 : j - s.workers.length < s.threadsCount := hlt2
      exact ⟨j - s.workers.length, hlt3, by omega⟩
  · intro j st hj t hslot
    rcases getElem_append_repl hj with ⟨_, hold⟩ | ⟨hst, _, _⟩
    · exact hSLt j st hold t hslot
    · subst hst
      simp [slotTask] at hslot
  · intro t ht
    obtain ⟨hf, he⟩ := hDisj t ht
    refine ⟨?_, he⟩
    intro j st hj
    rcases getElem_append_repl hj with ⟨_, hold⟩ | ⟨hst, _, _⟩
    · exact hf j st hold
    · subst hst
      simp [slotTask]

/-- Every atomic step of the final revision preserves the invariant. -/
theorem inv_step {l : Lbl} {s s' : St} (hI : Inv s) (h : Step l s s') :
    Inv s' := by
  cases h with
  | addTask s =>
    by_cases hal : s.alive = true
    · rw [if_pos hal]
      exact inv_addTask_core (notifyOne s.workers) hI
        (notifyOne_counts isClaimedW rfl s.workers)
        (notifyOne_counts isExecW rfl s.workers)
        (notifyOne_counts isPostW rfl s.workers) (notifyOne_pointwise _)
    · rw [if_neg hal]
      exact inv_addTask_core s.workers hI rfl rfl rfl
        (fun j st hj => Or.inl hj)
  | clear s =>
    obtain ⟨hRun, hCount, hTerm, hSort, hQLt, hSLt, hELt, hDisj⟩ := hI
    refine ⟨hRun, ?_, hTerm, List.Pairwise.nil, by simp, hSLt, hELt, by simp⟩
    show ([] : List Nat).length + cClaimed s + cExec s + s.executed.length +
        (s.cleared + s.queue.length) = s.nextTask
    simp only [List.length_nil]
    omega
  | stopFlag s => exact hI
  | notifyAll s =>
    obtain ⟨hRun, hCount, hTerm, hSort, hQLt, hSLt, hELt, hDisj⟩ := hI
    have hptm : ∀ (j : Nat) (st : WSt),
        (s.workers.map wakeAll)[j]? = some st →
        ∃ b, s.workers[j]? = some b ∧ st = wakeAll b := by
      intro j st hj
      rw [List.getElem?_map] at hj
      cases hb : s.workers[j]? with
      | none => rw [hb] at hj; simp at hj
      | some b => rw [hb] at hj; exact ⟨b, rfl, (Option.some.inj hj).symm⟩
    refine ⟨?_, ?_, ?_, hSort, hQLt, ?_, hELt, ?_⟩
    · show s.running = (s.workers.map wakeAll).countP isExecW +
          (s.workers.map wakeAll).countP isPostW
      rw [countP_map_wakeAll isExecW wakeAll_exec,
        countP_map_wakeAll isPostW wakeAll_post]
      exact hRun
    · show s.queue.length + (s.workers.map wakeAll).countP isClaimedW +
          (s.workers.map wakeAll).countP isExecW + s.executed.length +
          s.cleared = s.nextTask
      rw [countP_map_wakeAll isClaimedW wakeAll_claimed,
        countP_map_wakeAll isExecW wakeAll_exec]
      exact hCount
    · intro j st hj hnp
      obtain ⟨b, hb, hst⟩ := hptm j st hj
      subst hst
      rw [hTerm j b hb hnp]
      rfl
    · intro j st hj t hslot
      obtain ⟨b, hb, hst⟩ := hptm j st hj
      subst hst
      rw [wakeAll_slot] at hslot
      exact hSLt j b hb t hslot
    · intro t ht
      obtain ⟨hf, he⟩ := hDisj t ht
      refine ⟨?_, he⟩
      intro j st hj
      obtain ⟨b, hb, hst⟩ := hptm j st hj
      subst hst
      rw [wakeAll_slot]
      exact hf j b hb
  | join s hg => exact inv_clean_up hI hg
  | joinAll s hg =>
    unfold joinAllF
    by_cases hcond : s.alive = false ∧ s.threadsPool ≠ []
    · rw [if_pos hcond]
      exact inv_clean_up hI (hg hcond.1)
    · rw [if_neg hcond]
      exact hI
  | start s hg =>
    unfold startF
    by_cases hal : s.alive = true
    · rw [if_pos hal]
      exact hI
    · rw [if_neg hal]
      have hal2 : s.alive = false := by
        cases hb : s.alive with
        | false => rfl
        | true => exact absurd hb hal
      by_cases hp : s.threadsPool = []
      · rw [if_pos hp]
        exact inv_spawn_core s hp hI
      · rw [if_neg hp]
        exact inv_spawn_core (clean_up s) rfl (inv_clean_up hI (hg hal2))
  | wLoopExit s i hw ha =>
    exact inv_set_simple WSt.terminated WSt.atLoop hw hI rfl rfl rfl rfl
      (by simp)
  | wLoopEnter s i hw ha =>
    exact inv_set_simple WSt.waiting WSt.atLoop hw hI rfl rfl rfl rfl
      (by simp)
  | wClaim s i t rest hw ha hq =>
    obtain ⟨hRun, hCount, hTerm, hSort, hQLt, hSLt, hELt, hDisj⟩ := hI
    simp only [cClaimed, cExec, cPost] at hRun hCount
    have hsort2 : List.Pairwise (· < ·) (t :: rest) := hq ▸ hSort
    have hmem : t ∈ s.queue := by rw [hq]; simp
    refine ⟨?_, ?_, term_set_pres hw hTerm (by simp), ?_, ?_, ?_, hELt, ?_⟩
    · show s.running = (s.workers.set i (WSt.claimed t)).countP isExecW +
          (s.workers.set i (WSt.claimed t)).countP isPostW
      rw [countP_set_same isExecW s.workers i (WSt.claimed t) WSt.waiting hw rfl,
        countP_set_same isPostW s.workers i (WSt.claimed t) WSt.waiting hw rfl]
      exact hRun
    · show rest.length + (s.workers.set i (WSt.claimed t)).countP isClaimedW +
          (s.workers.set i (WSt.claimed t)).countP isExecW +
          s.executed.length + s.cleared = s.nextTask
      have h1 := countP_set_eq isClaimedW s.workers i (WSt.claimed t)
        WSt.waiting hw
      have h2 := countP_set_same isExecW s.workers i (WSt.claimed t)
        WSt.waiting hw rfl
      have h3 : s.queue.length = rest.length + 1 := by rw [hq]; simp
      simp [isClaimedW] at h1
      omega
    · exact (List.pairwise_cons.mp hsort2).2
    · intro u hu
      exact hQLt u (by rw [hq]; simp [hu])
    · refine slotLt_set_pres hSLt ?_
      intro u hu
      have h4 : t = u := Option.some.inj hu
      subst h4
      exact hQLt t hmem
    · intro u hu
      have huq : u ∈ s.queue := by rw [hq]; simp [hu]
      obtain ⟨hf, he⟩ := hDisj u huq
      have htu : t < u := (List.pairwise_cons.mp hsort2).1 u hu
      refine ⟨slotFree_set hf ?_, he⟩
      intro hc
      exact absurd (Option.some.inj hc) (by omega)
  | wNotAlive s i hw ha =>
    exact inv_set_simple WSt.atLoop WSt.waiting hw hI rfl rfl rfl rfl
      (by simp)
  | wPark s i hw ha hq =>
    exact inv_set_simple (WSt.parked false) WSt.waiting hw hI rfl rfl rfl rfl
      (by simp)
  | wWake s i hw =>
    exact inv_set_simple WSt.waiting (WSt.parked true) hw hI rfl rfl rfl rfl
      (by simp)
  | wInc s i t hw =>
    obtain ⟨hRun, hCount, hTerm, hSort, hQLt, hSLt, hELt, hDisj⟩ := hI
    simp only [cClaimed, cExec, cPost] at hRun hCount
    have h1 := countP_set_eq isClaimedW s.workers i (WSt.executing t)
      (WSt.claimed t) hw
    have h2 := countP_set_eq isExecW s.workers i (WSt.executing t)
      (WSt.claimed t) hw
    have h3 := countP_set_same isPostW s.workers i (WSt.executing t)
      (WSt.claimed t) hw rfl
    simp [isClaimedW, isExecW] at h1 h2
    refine ⟨?_, ?_, term_set_pres hw hTerm (by simp), hSort, hQLt, ?_, hELt,
      ?_⟩
    · show s.running + 1 =
          (s.workers.set i (WSt.executing t)).countP isExecW +
          (s.workers.set i (WSt.executing t)).countP isPostW
      omega
    · show s.queue.length +
          (s.workers.set i (WSt.executing t)).countP isClaimedW +
          (s.workers.set i (WSt.executing t)).countP isExecW +
          s.executed.length + s.cleared = s.nextTask
      omega
    · refine slotLt_set_pres hSLt ?_
      intro u hu
      have h4 : t = u := Option.some.inj hu
      subst h4
      exact hSLt i (WSt.claimed t) hw t rfl
    · intro u huq
      obtain ⟨hf, he⟩ := hDisj u huq
      exact ⟨slotFree_set hf (hf i (WSt.claimed t) hw), he⟩
  | wRun s i t hw =>
    obtain ⟨hRun, hCount, hTerm, hSort, hQLt, hSLt, hELt, hDisj⟩ := hI
    simp only [cClaimed, cExec, cPost] at hRun hCount
    have h1 := countP_set_same isClaimedW s.workers i (WSt.postRun t)
      (WSt.executing t) hw rfl
    have h2 := countP_set_eq isExecW s.workers i (WSt.postRun t)
      (WSt.executing t) hw
    have h3 := countP_set_eq isPostW s.workers i (WSt.postRun t)
      (WSt.executing t) hw
    simp [isExecW, isPostW] at h2 h3
    have htlt : t < s.nextTask := hSLt i (WSt.executing t) hw t rfl
    refine ⟨?_, ?_, term_set_pres hw hTerm (by simp), hSort, hQLt, ?_, ?_, ?_⟩
    · show s.running = (s.workers.set i (WSt.postRun t)).countP isExecW +
          (s.workers.set i (WSt.postRun t)).countP isPostW
      omega
    · show s.queue.length +
          (s.workers.set i (WSt.postRun t)).countP isClaimedW +
          (s.workers.set i (WSt.postRun t)).countP isExecW +
          (s.executed ++ [t]).length + s.cleared = s.nextTask
      simp only [List.length_append, List.length_cons, List.length_nil]
      omega
    · refine slotLt_set_pres hSLt ?_
      intro u hu
      have h4 : t = u := Option.some.inj hu
      subst h4
      exact htlt
    · intro u hu
      rcases List.mem_append.mp hu with h5 | h5
      · exact hELt u h5
      · simp only [List.mem_singleton] at h5
        subst h5
        exact htlt
    · intro u huq
      obtain ⟨hf, he⟩ := hDisj u huq
      have hne := hf i (WSt.executing t) hw
      refine ⟨slotFree_set hf hne, ?_⟩
      intro hc
      rcases List.mem_append.mp hc with h5 | h5
      · exact he h5
      · simp only [List.mem_singleton] at h5
        subst h5
        exact hne rfl
  | wDec s i t hw =>
    obtain ⟨hRun, hCount, hTerm, hSort, hQLt, hSLt, hELt, hDisj⟩ := hI
    simp only [cClaimed, cExec, cPost] at hRun hCount
    have h1 := countP_set_same isClaimedW s.workers i WSt.atLoop
      (WSt.postRun t) hw rfl
    have h2 := countP_set_same isExecW s.workers i WSt.atLoop
      (WSt.postRun t) hw rfl
    have h3 := countP_set_eq isPostW s.workers i WSt.atLoop (WSt.postRun t) hw
    simp [isPostW] at h3
    refine ⟨?_, ?_, term_set_pres hw hTerm (by simp), hSort, hQLt, ?_, hELt,
      ?_⟩
    · show s.running - 1 = (s.workers.set i WSt.atLoop).countP isExecW +
          (s.workers.set i WSt.atLoop).countP isPostW
      omega
    · show s.queue.length + (s.workers.set i WSt.atLoop).countP isClaimedW +
          (s.workers.set i WSt.atLoop).countP isExecW + s.executed.length +
          s.cleared = s.nextTask
      omega
    · refine slotLt_set_pres hSLt ?_
      intro u hu
      simp [slotTask] at hu
    · intro u huq
      obtain ⟨hf, he⟩ := hDisj u huq
      refine ⟨slotFree_set hf ?_, he⟩
      simp [slotTask]

/-- The invariant holds in every state reachable from a freshly
constructed pool. -/
theorem reach_inv {a b : St} (hI : Inv a) (h : Reach a b) : Inv b := by
  induction h with
  | refl => exact hI
  | tail _ hstep ih =>
    obtain ⟨l, hl⟩ := hstep
    exact inv_step ih hl

theorem step_cast {l : Lbl} {a b b' : St} (h : Step l a b) (he : b = b') :
    Step l a b' := he ▸ h

theorem step0_cast {l : Lbl} {a b b' : St} (h : Step0 l a b) (he : b = b') :
    Step0 l a b' := he ▸ h

theorem reach_trState1 : Reach (initSt 1) trState1 :=
  Relation.ReflTransGen.single
    ⟨.start, step_cast (Step.start (initSt 1) (by decide)) (by decide)⟩

theorem reach_trState2 : Reach (initSt 1) trState2 :=
  reach_trState1.tail
    ⟨.addTask, step_cast (Step.addTask trState1) (by decide)⟩

theorem reach_trState3 : Reach (initSt 1) trState3 :=
  reach_trState2.tail
    ⟨.wLoopEnter 0,
      step_cast (Step.wLoopEnter trState2 0 (by decide) rfl) (by decide)⟩

theorem reach_c2sClaim : Reach (initSt 1) c2sClaim :=
  reach_trState3.tail
    ⟨.wClaim 0 0,
      step_cast (Step.wClaim trState3 0 0 [] (by decide) rfl rfl) (by decide)⟩

theorem reach0_c1s4 : Reach0 (initSt 1) c1s4 :=
  Relation.ReflTransGen.tail
    (Relation.ReflTransGen.tail
      (Relation.ReflTransGen.tail
        (Relation.ReflTransGen.single
          ⟨.start, step0_cast (Step0.start (initSt 1) (by decide)) (by decide)⟩)
        ⟨.addTask, step0_cast (Step0.addTask trState1) (by decide)⟩)
      ⟨.wLoopEnter 0,
        step0_cast (Step0.wLoopEnter trState2 0 (by decide) rfl) (by decide)⟩)
    ⟨.stopFlag, step0_cast (Step0.stopFlag trState3) (by decide)⟩

/-- C2 counterexample: in the reachable state `c2sClaim` — one task
submitted, a worker has popped it but not yet incremented the running
counter — `pending() + running() = 0` while the number of submitted tasks
neither completed nor cleared is `1`, so the claimed equality fails and
the popped task is counted by neither `pending()` nor `running()`. -/
theorem c2_counterexample :
    Reach (initSt 1) c2sClaim ∧
    pending c2sClaim + c2sClaim.running = 0 ∧
    c2sClaim.nextTask - c2sClaim.cleared - c2sClaim.executed.length = 1 ∧
    pending c2sClaim + c2sClaim.running ≠
      c2sClaim.nextTask - c2sClaim.cleared - c2sClaim.executed.length :=
  ⟨reach_c2sClaim, by decide, by decide, by decide⟩

/-- C2 (amended): in every reachable state, `pending() + running()` plus
the number of workers between their pop and their running-counter
increment equals the number of submitted tasks neither cleared nor yet
past their running-counter decrement (that is, `nextTask - cleared -
executed.length` plus the workers between `run()` returning and the
decrement); outside those two windows the originally claimed equality
holds. -/
theorem c2_amended {n : Nat} {s : St} (h : Reach (initSt n) s) :
    pending s + s.running + cClaimed s + s.cleared + s.executed.length
      = s.nextTask + cPost s := by
  have hI := reach_inv (inv_init n) h
  obtain ⟨hRun, hCount, _⟩ := hI
  simp only [cClaimed, cExec, cPost] at hRun hCount
  simp only [pending, cClaimed, cPost]
  omega

theorem c2_amended_witness :
    pending c2sClaim + c2sClaim.running + cClaimed c2sClaim +
      c2sClaim.cleared + c2sClaim.executed.length
        = c2sClaim.nextTask + cPost c2sClaim :=
  c2_amended reach_c2sClaim

theorem joinAllF_workers (s : St) : (joinAllF s).workers = s.workers := by
  unfold joinAllF
  split <;> rfl

theorem joinAllF_alive (s : St) : (joinAllF s).alive = s.alive := by
  unfold joinAllF
  split <;> rfl

theorem startF_workers_not_alive {s : St} (hal : ¬s.alive = true) :
    (startF s).workers
      = s.workers ++ List.replicate s.threadsCount WSt.atLoop := by
  unfold startF
  rw [if_neg hal]
  split <;> rfl

/-- C1 counterexample: under the intermediate revision's worker loop
(`Step0`, branch `if(!tasks_pool_.empty())`), the reachable state `c1s4`
has the liveness flag false and task `0` still queued, and the waiting
worker nevertheless begins a new task claim — contradicting the claim
that while the flag is false no new task claim begins. -/
theorem c1_counterexample :
    Reach0 (initSt 1) c1s4 ∧ c1s4.alive = false ∧
    c1s4.workers[0]? = some WSt.waiting ∧
    Step0 (Lbl.wClaim 0 0) c1s4 c1s5 ∧
    c1s5.workers[0]? = some (WSt.claimed 0) :=
  ⟨reach0_c1s4, by decide, by decide,
    step0_cast (Step0.wClaim c1s4 0 0 [] (by decide) (by decide)) (by decide),
    by decide⟩

/-- C1 (amended): in the final revision's worker loop (`Step`, branch
`if(alive_)`), while the liveness flag is false no new task claim begins
(every step that moves a worker from the wait into a claimed slot requires
the flag true), and the sole worker-termination path is the loop test
observing the flag false; in the intermediate revision, however, a worker
waking with the flag false and a non-empty queue still claims one task
before terminating. -/
theorem c1_amended :
    (∀ (l : Lbl) (s s' : St) (i t : Nat), Step l s s' →
        s.workers[i]? = some WSt.waiting →
        s'.workers[i]? = some (WSt.claimed t) → s.alive = true) ∧
    (∀ (l : Lbl) (s s' : St) (i : Nat), Step l s s' →
        s'.workers[i]? = some WSt.terminated →
        s.workers[i]? ≠ some WSt.terminated →
        l = Lbl.wLoopExit i ∧ s.alive = false) := by
  constructor
  · intro l s s' i t h hw hw'
    cases h with
    | addTask s =>
      by_cases hal : s.alive = true
      · exact hal
      · have hw2 : (if s.alive = true then notifyOne s.workers
            else s.workers)[i]? = some (WSt.claimed t) := hw'
        rw [if_neg hal] at hw2
        exact absurd (hw.symm.trans hw2) (by simp)
    | clear s =>
      exact absurd (hw.symm.trans hw') (by simp)
    | stopFlag s =>
      exact absurd (hw.symm.trans hw') (by simp)
    | notifyAll s =>
      have hw2 : (s.workers.map wakeAll)[i]? = some (WSt.claimed t) := hw'
      rw [List.getElem?_map, hw] at hw2
      simp [wakeAll] at hw2
    | join s hg =>
      exact absurd (hw.symm.trans hw') (by simp)
    | joinAll s hg =>
      have hw2 : (joinAllF s).workers[i]? = some (WSt.claimed t) := hw'
      rw [joinAllF_workers] at hw2
      exact absurd (hw.symm.trans hw2) (by simp)
    | start s hg =>
      by_cases hal : s.alive = true
      · exact hal
      · have hw2 : (startF s).workers[i]? = some (WSt.claimed t) := hw'
        rw [startF_workers_not_alive hal] at hw2
        rcases getElem_append_repl hw2 with ⟨_, hold⟩ | ⟨hst, _, _⟩
        · exact absurd (hw.symm.trans hold) (by simp)
        · simp at hst
    | wLoopExit s j hjw hja =>
      rcases getElem_set_inv hw' with ⟨_, hst⟩ | ⟨_, hold⟩
      · simp at hst
      · exact absurd (hw.symm.trans hold) (by simp)
    | wLoopEnter s j hjw hja =>
      rcases getElem_set_inv hw' with ⟨_, hst⟩ | ⟨_, hold⟩
      · simp at hst
      · exact absurd (hw.symm.trans hold) (by simp)
    | wClaim s j u rest hjw hja hjq =>
      exact hja
    | wNotAlive s j hjw hja =>
      rcases getElem_set_inv hw' with ⟨_, hst⟩ | ⟨_, hold⟩
      · simp at hst
      · exact absurd (hw.symm.trans hold) (by simp)
    | wPark s j hjw hja hjq =>
      rcases getElem_set_inv hw' with ⟨_, hst⟩ | ⟨_, hold⟩
      · simp at hst
      · exact absurd (hw.symm.trans hold) (by simp)
    | wWake s j hjw =>
      rcases getElem_set_inv hw' with ⟨_, hst⟩ | ⟨_, hold⟩
      · simp at hst
      · exact absurd (hw.symm.trans hold) (by simp)
    | wInc s j u hjw =>
      rcases getElem_set_inv hw' with ⟨_, hst⟩ | ⟨_, hold⟩
      · simp at hst
      · exact absurd (hw.symm.trans hold) (by simp)
    | wRun s j u hjw =>
      rcases getElem_set_inv hw' with ⟨_, hst⟩ | ⟨_, hold⟩
      · simp at hst
      · exact absurd (hw.symm.trans hold) (by simp)
    | wDec s j u hjw =>
      rcases getElem_set_inv hw' with ⟨_, hst⟩ | ⟨_, hold⟩
      · simp at hst
      · exact absurd (hw.symm.trans hold) (by simp)
  · intro l s s' i h hw' hnot
    cases h with
    | addTask s =>
      by_cases hal : s.alive = true
      · have hw2 : (if s.alive = true then notifyOne s.workers
            else s.workers)[i]? = some WSt.terminated := hw'
        rw [if_pos hal] at hw2
        rcases notifyOne_pointwise s.workers i WSt.terminated hw2 with
          hold | ⟨hst, _⟩
        · exact absurd hold hnot
        · simp at hst
      · have hw2 : (if s.alive = true then notifyOne s.workers
            else s.workers)[i]? = some WSt.terminated := hw'
        rw [if_neg hal] at hw2
        exact absurd hw2 hnot
    | clear s => exact absurd hw' hnot
    | stopFlag s => exact absurd hw' hnot
    | notifyAll s =>
      have hw2 : (s.workers.map wakeAll)[i]? = some WSt.terminated := hw'
      rw [List.getElem?_map] at hw2
      cases hb : s.workers[i]? with
      | none => rw [hb] at hw2; simp at hw2
      | some b =>
        rw [hb] at hw2
        simp only [Option.map_some', Option.some.injEq] at hw2
        rw [wakeAll_term] at hw2
        subst hw2
        exact absurd hb hnot
    | join s hg => exact absurd hw' hnot
    | joinAll s hg =>
      have hw2 : (joinAllF s).workers[i]? = some WSt.terminated := hw'
      rw [joinAllF_workers] at hw2
      exact absurd hw2 hnot
    | start s hg =>
      by_cases hal : s.alive = true
      · have hw2 : (startF s).workers[i]? = some WSt.terminated := hw'
        unfold startF at hw2
        rw [if_pos hal] at hw2
        exact absurd hw2 hnot
      · have hw2 : (startF s).workers[i]? = some WSt.terminated := hw'
        rw [startF_workers_not_alive hal] at hw2
        rcases getElem_append_repl hw2 with ⟨_, hold⟩ | ⟨hst, _, _⟩
        · exact absurd hold hnot
        · simp at hst
    | wLoopExit s j hjw hja =>
      rcases getElem_set_inv hw' with ⟨hij, _⟩ | ⟨_, hold⟩
      · subst hij
        exact ⟨rfl, hja⟩
      · exact absurd hold hnot
    | wLoopEnter s j hjw hja =>
      rcases getElem_set_inv hw' with ⟨_, hst⟩ | ⟨_, hold⟩
      · simp at hst
      · exact absurd hold hnot
    | wClaim s j u rest hjw hja hjq =>
      rcases getElem_set_inv hw' with ⟨_, hst⟩ | ⟨_, hold⟩
      · simp at hst
      · exact absurd hold hnot
    | wNotAlive s j hjw hja =>
      rcases getElem_set_inv hw' with ⟨_, hst⟩ | ⟨_, hold⟩
      · simp at hst
      · exact absurd hold hnot
    | wPark s j hjw hja hjq =>
      rcases getElem_set_inv hw' with ⟨_, hst⟩ | ⟨_, hold⟩
      · simp at hst
      · exact absurd hold hnot
    | wWake s j hjw =>
      rcases getElem_set_inv hw' with ⟨_, hst⟩ | ⟨_, hold⟩
      · simp at hst
      · exact absurd hold hnot
    | wInc s j u hjw =>
      rcases getElem_set_inv hw' with ⟨_, hst⟩ | ⟨_, hold⟩
      · simp at hst
      · exact absurd hold hnot
    | wRun s j u hjw =>
      rcases getElem_set_inv hw' with ⟨_, hst⟩ | ⟨_, hold⟩
      · simp at hst
      · exact absurd hold hnot
    | wDec s j u hjw =>
      rcases getElem_set_inv hw' with ⟨_, hst⟩ | ⟨_, hold⟩
      · simp at hst
      · exact absurd hold hnot

theorem c1_amended_witness : trState3.alive = true :=
  c1_amended.1 (Lbl.wClaim 0 0) trState3
    { trState3 with
      queue := []
      workers := trState3.workers.set 0 (WSt.claimed 0) } 0 0
    (Step.wClaim trState3 0 0 [] (by decide) rfl rfl) (by decide) (by decide)

/-- C3 counterexample: `waitForIdle()` reads `is_pending()` (false on the
empty pool `c3sA`), a concurrent `addTask` then enqueues task `0`, and the
subsequent `is_running()` read returns false, so `waitForIdle()` returns
in state `c3sB` where `pending() = 1` — it does not return only when
`pending()` and `running()` are simultaneously zero. -/
theorem c3_counterexample :
    Relation.ReflTransGen CStep (c3sA, OSt.p1) (c3sB, OSt.ret) ∧
    pending c3sB = 1 ∧ c3sB.running = 0 := by
  refine ⟨?_, by decide, by decide⟩
  have h1 : CStep (c3sA, OSt.p1) (c3sA, OSt.p2) :=
    CStep.pendFalse c3sA (by decide)
  have h2 : CStep (c3sA, OSt.p2) (c3sB, OSt.p2) :=
    CStep.pool OSt.p2 Lbl.addTask (step_cast (Step.addTask c3sA) (by decide))
  have h3 : CStep (c3sB, OSt.p2) (c3sB, OSt.ret) :=
    CStep.runFalse c3sB (by decide)
  exact ((Relation.ReflTransGen.single h1).tail h2).tail h3

/-- C3 (amended): `waitForIdle()` returns only via a read of
`is_running()` that yields false, itself preceded by a read of
`is_pending()` that yielded false; each read is individually accurate at
its own instant (so `running() = 0` holds at the instant of return), but
the two instants differ, and a task added between them leaves `pending()`
non-zero at the return. -/
theorem c3_amended :
    (∀ (s s2 : St) (o2 : OSt), CStep (s, OSt.p2) (s2, o2) → o2 = OSt.ret →
        is_running s2 = false ∧ s2 = s) ∧
    (∀ (s s2 : St) (o2 : OSt), CStep (s, OSt.p1) (s2, o2) → o2 = OSt.p2 →
        is_pending s2 = false ∧ s2 = s) := by
  constructor
  · intro s s2 o2 h ho
    cases h with
    | pool o l hstep => exact absurd ho (by simp)
    | runTrue s hr => exact absurd ho (by simp)
    | runFalse s hr => exact ⟨hr, rfl⟩
  · intro s s2 o2 h ho
    cases h with
    | pool o l hstep => exact absurd ho (by simp)
    | pendTrue s hp => exact absurd ho (by simp)
    | pendFalse s hp => exact ⟨hp, rfl⟩

theorem c3_amended_witness :
    is_running (initSt 0) = false ∧ initSt 0 = initSt 0 :=
  c3_amended.1 (initSt 0) (initSt 0) OSt.ret
    (CStep.runFalse (initSt 0) (by decide)) rfl

theorem step_keeps_alive_false {l : Lbl} {s s' : St} (hl : l ≠ Lbl.start)
    (h : Step l s s') (ha : s.alive = false) : s'.alive = false := by
  cases h with
  | addTask s => exact ha
  | clear s => exact ha
  | stopFlag s => rfl
  | notifyAll s => exact ha
  | join s hg => exact ha
  | joinAll s hg => rw [joinAllF_alive]; exact ha
  | start s hg => exact absurd rfl hl
  | wLoopExit s i hw hja => exact ha
  | wLoopEnter s i hw hja => exact ha
  | wClaim s i t rest hw hja hq => exact ha
  | wNotAlive s i hw hja => exact ha
  | wPark s i hw hja hq => exact ha
  | wWake s i hw => exact ha
  | wInc s i t hw => exact ha
  | wRun s i t hw => exact ha
  | wDec s i t hw => exact ha

theorem midreach_inv {a b : St} (hI : Inv a) (h : MidReach a b) : Inv b := by
  induction h with
  | refl => exact hI
  | tail _ hstep ih =>
    obtain ⟨l, _, hl⟩ := hstep
    exact inv_step ih hl

theorem midreach_alive_false {a b : St} (h : MidReach a b)
    (ha : a.alive = false) : b.alive = false := by
  induction h with
  | refl => exact ha
  | tail _ hstep ih =>
    obtain ⟨l, hne, hl⟩ := hstep
    exact step_keeps_alive_false hne hl ih

theorem running_zero_of_allterm {s : St} (hI : Inv s)
    (hall : ∀ (j : Nat) (st : WSt), s.workers[j]? = some st →
        st = WSt.terminated) :
    s.running = 0 := by
  obtain ⟨hRun, _⟩ := hI
  have he : cExec s = 0 := by
    refine List.countP_eq_zero.mpr ?_
    intro a ha
    obtain ⟨j, hj⟩ := List.mem_iff_getElem?.mp ha
    rw [hall j a hj]
    simp [isExecW]
  have hp : cPost s = 0 := by
    refine List.countP_eq_zero.mpr ?_
    intro a ha
    obtain ⟨j, hj⟩ := List.mem_iff_getElem?.mp ha
    rw [hall j a hj]
    simp [isPostW]
  omega

/-- C4: a Sync `stop` is the step sequence flag-write, `notify_all`, then
`clean_up` if `threads_pool_` is non-empty (the join step is enabled only
once every unjoined worker terminated); with any interleaving of steps
other than `start` in between, the state in which `stop(Sync)` returns has
`status() = DOWN`, `running() = 0`, an empty thread container, and every
spawned worker terminated. -/
theorem c4_stop_sync {n : Nat} {s0 s1 s2 s3 s4 s5 : St}
    (h0 : Reach (initSt n) s0)
    (h1 : Step .stopFlag s0 s1)
    (h2 : MidReach s1 s2)
    (h3 : Step .notifyAll s2 s3)
    (h4 : MidReach s3 s4)
    (h5 : (s4.threadsPool = [] ∧ s5 = s4) ∨ Step .join s4 s5) :
    status s5 = STATUS.DOWN ∧ s5.running = 0 ∧ s5.threadsPool = [] ∧
    (∀ (j : Nat) (st : WSt), s5.workers[j]? = some st →
        st = WSt.terminated) := by
  have hI0 : Inv s0 := reach_inv (inv_init n) h0
  have hI1 : Inv s1 := inv_step hI0 h1
  have hI2 : Inv s2 := midreach_inv hI1 h2
  have hI3 : Inv s3 := inv_step hI2 h3
  have hI4 : Inv s4 := midreach_inv hI3 h4
  have ha1 : s1.alive = false := by cases h1; rfl
  have ha2 := midreach_alive_false h2 ha1
  have ha3 : s3.alive = false := by cases h3; exact ha2
  have ha4 := midreach_alive_false h4 ha3
  rcases h5 with ⟨hp, hs⟩ | hjoin
  · rw [hs]
    have hall : ∀ (j : Nat) (st : WSt), s4.workers[j]? = some st →
        st = WSt.terminated := by
      intro j st hj
      exact hI4.2.2.1 j st hj (by rw [hp]; simp)
    exact ⟨by simp [status, ha4], running_zero_of_allterm hI4 hall, hp, hall⟩
  · cases hjoin with
    | join s hg =>
      have hall : ∀ (j : Nat) (st : WSt), s4.workers[j]? = some st →
          st = WSt.terminated := by
        intro j st hj
        by_cases hjp : j ∈ s4.threadsPool
        · have hterm := hg j hjp
          rw [hj] at hterm
          exact Option.some.inj hterm
        · exact hI4.2.2.1 j st hj hjp
      exact ⟨by simp [status, clean_up, ha4],
        (running_zero_of_allterm hI4 hall : s4.running = 0), rfl, hall⟩

theorem c4_stop_sync_witness :
    status (initSt 0) = STATUS.DOWN ∧ (initSt 0).running = 0 ∧
      (initSt 0).threadsPool = [] := by
  have h := c4_stop_sync (n := 0) Relation.ReflTransGen.refl
    (step_cast (Step.stopFlag (initSt 0)) (by decide) :
      Step Lbl.stopFlag (initSt 0) (initSt 0))
    Relation.ReflTransGen.refl
    (step_cast (Step.notifyAll (initSt 0)) (by decide) :
      Step Lbl.notifyAll (initSt 0) (initSt 0))
    Relation.ReflTransGen.refl (Or.inl ⟨rfl, rfl⟩)
  exact ⟨h.1, h.2.1, h.2.2.1⟩

theorem reach0_c5sPark : Reach0 (initSt 1) c5sPark :=
  Relation.ReflTransGen.tail
    (Relation.ReflTransGen.tail
      (Relation.ReflTransGen.single
        ⟨.start, step0_cast (Step0.start (initSt 1) (by decide)) (by decide)⟩)
      ⟨.wLoopEnter 0,
        step0_cast (Step0.wLoopEnter trState1 0 (by decide) rfl) (by decide)⟩)
    ⟨.wPark 0,
      step0_cast (Step0.wPark c5sWait 0 (by decide) rfl rfl) (by decide)⟩

/-- C5 counterexample: in the intermediate revision, whose `stop` writes
the flag without the queue lock, a worker that evaluated the wait
predicate (flag true, queue empty) can have the flag write and the
`notify_all` land before it enters the wait set: the `notify_all` step
from `c5sDown` changes nothing (it delivers to no one), and the worker
then blocks, ending parked with no delivered notification while the pool
is Down — the termination signal did not reach this idle worker. -/
theorem c5_counterexample :
    Reach0 (initSt 1) c5sPark ∧
    c5sPark.workers[0]? = some WSt.parking ∧
    Step0 Lbl.stopFlag c5sPark c5sDown ∧
    Step0 Lbl.notifyAll c5sDown c5sDown ∧
    Step0 (Lbl.wBlock 0) c5sDown c5sStuck ∧
    c5sStuck.alive = false ∧
    c5sStuck.workers[0]? = some (WSt.parked false) :=
  ⟨reach0_c5sPark, by decide,
    step0_cast (Step0.stopFlag c5sPark) (by decide),
    step0_cast (Step0.notifyAll c5sDown) (by decide),
    step0_cast (Step0.wBlock c5sDown 0 (by decide)) (by decide),
    by decide, by decide⟩

/-- C5 (amended): `stop` (either policy) sets the liveness flag false and
its `notify_all` wakes exactly the workers blocked at that moment.  In
the final revision the flag write is taken under the queue lock, so no
worker can be between its predicate evaluation and its block when the
notification fires: after the write and the `notify_all`, the flag is
false, every parked worker holds a delivered notification and its wake
step is enabled.  In the intermediate revision the write is unguarded: a
worker still in the parking window misses the `notify_all`, the wake step
fires only on a delivered notification, and a worker parked without one
in a Down pool stays so under every step except a further `notify_all`
(i.e. only another `stop` call could release it) — it remains permanently
parked. -/
theorem c5_amended :
    (∀ s0 s1 s2 s3 : St, Step .stopFlag s0 s1 → MidReach s1 s2 →
        Step .notifyAll s2 s3 →
        s3.alive = false ∧
        (∀ (i : Nat) (b : Bool), s3.workers[i]? = some (WSt.parked b) →
            b = true) ∧
        (∀ (i : Nat), s3.workers[i]? = some (WSt.parked true) →
            ∃ s4, Step (Lbl.wWake i) s3 s4)) ∧
    (∀ (s s' : St) (i : Nat), Step0 Lbl.notifyAll s s' →
        s.workers[i]? = some WSt.parking →
        s'.workers[i]? = some WSt.parking) ∧
    (∀ (s s' : St) (i : Nat), Step0 (Lbl.wWake i) s s' →
        s.workers[i]? = some (WSt.parked true)) ∧
    (∀ (l : Lbl) (s s' : St) (i : Nat), Step0 l s s' →
        s.workers[i]? = some (WSt.parked false) → s.alive = false →
        l ≠ Lbl.notifyAll → s'.workers[i]? = some (WSt.parked false)) := by
  refine ⟨?_, ?_, ?_, ?_⟩
  · intro s0 s1 s2 s3 h1 h2 h3
    have ha1 : s1.alive = false := by cases h1; rfl
    have ha2 := midreach_alive_false h2 ha1
    cases h3 with
    | notifyAll s =>
      refine ⟨ha2, ?_, ?_⟩
      · intro i b hi
        have hi2 : (s2.workers.map wakeAll)[i]? = some (WSt.parked b) := hi
        rw [List.getElem?_map] at hi2
        cases hb : s2.workers[i]? with
        | none => rw [hb] at hi2; simp at hi2
        | some c =>
          rw [hb] at hi2
          simp only [Option.map_some', Option.some.injEq] at hi2
          cases c with
          | parked b2 =>
            simp [wakeAll] at hi2
            exact hi2
          | atLoop => simp [wakeAll] at hi2
          | waiting => simp [wakeAll] at hi2
          | parking => simp [wakeAll] at hi2
          | claimed t => simp [wakeAll] at hi2
          | executing t => simp [wakeAll] at hi2
          | postRun t => simp [wakeAll] at hi2
          | terminated => simp [wakeAll] at hi2
      · intro i hi
        exact ⟨_, Step.wWake _ i hi⟩
  · intro s s' i h hp
    cases h with
    | notifyAll s =>
      show (s.workers.map wakeAll)[i]? = some WSt.parking
      rw [List.getElem?_map, hp]
      rfl
  · intro s s' i h
    cases h with
    | wWake s i hw => exact hw
  · intro l s s' i h hp hal hne
    cases h with
    | addTask s =>
      show (if s.alive = true then notifyOne s.workers
          else s.workers)[i]? = some (WSt.parked false)
      rw [if_neg (by simp [hal])]
      exact hp
    | clear s => exact hp
    | stopFlag s => exact hp
    | notifyAll s => exact absurd rfl hne
    | join s hg => exact hp
    | joinAll s hg =>
      show (joinAllF s).workers[i]? = some (WSt.parked false)
      rw [joinAllF_workers]
      exact hp
    | start s hg =>
      show (startF s).workers[i]? = some (WSt.parked false)
      rw [startF_workers_not_alive (by simp [hal])]
      rw [List.getElem?_append]
      rw [if_pos (List.getElem?_eq_some.mp hp).1]
      exact hp
    | wLoopExit s j hw2 ha2 =>
      by_cases hij : i = j
      · subst hij
        exact absurd (hp.symm.trans hw2) (by simp)
      · show (s.workers.set j WSt.terminated)[i]? = some (WSt.parked false)
        rw [List.getElem?_set_ne (Ne.symm hij)]
        exact hp
    | wLoopEnter s j hw2 ha2 =>
      by_cases hij : i = j
      · subst hij
        exact absurd (hp.symm.trans hw2) (by simp)
      · show (s.workers.set j WSt.waiting)[i]? = some (WSt.parked false)
        rw [List.getElem?_set_ne (Ne.symm hij)]
        exact hp
    | wClaim s j u rest hw2 hq2 =>
      by_cases hij : i = j
      · subst hij
        exact absurd (hp.symm.trans hw2) (by simp)
      · show (s.workers.set j (WSt.claimed u))[i]? = some (WSt.parked false)
        rw [List.getElem?_set_ne (Ne.symm hij)]
        exact hp
    | wNotAlive s j hw2 ha2 hq2 =>
      by_cases hij : i = j
      · subst hij
        exact absurd (hp.symm.trans hw2) (by simp)
      · show (s.workers.set j WSt.atLoop)[i]? = some (WSt.parked false)
        rw [List.getElem?_set_ne (Ne.symm hij)]
        exact hp
    | wPark s j hw2 ha2 hq2 =>
      by_cases hij : i = j
      · subst hij
        exact absurd (hp.symm.trans hw2) (by simp)
      · show (s.workers.set j WSt.parking)[i]? = some (WSt.parked false)
        rw [List.getElem?_set_ne (Ne.symm hij)]
        exact hp
    | wBlock s j hw2 =>
      by_cases hij : i = j
      · subst hij
        exact absurd (hp.symm.trans hw2) (by simp)
      · show (s.workers.set j (WSt.parked false))[i]?
          = some (WSt.parked false)
        rw [List.getElem?_set_ne (Ne.symm hij)]
        exact hp
    | wWake s j hw2 =>
      by_cases hij : i = j
      · subst hij
        exact absurd (hp.symm.trans hw2) (by simp)
      · show (s.workers.set j WSt.waiting)[i]? = some (WSt.parked false)
        rw [List.getElem?_set_ne (Ne.symm hij)]
        exact hp
    | wInc s j u hw2 =>
      by_cases hij : i = j
      · subst hij
        exact absurd (hp.symm.trans hw2) (by simp)
      · show (s.workers.set j (WSt.executing u))[i]?
          = some (WSt.parked false)
        rw [List.getElem?_set_ne (Ne.symm hij)]
        exact hp
    | wRun s j u hw2 =>
      by_cases hij : i = j
      · subst hij
        exact absurd (hp.symm.trans hw2) (by simp)
      · show (s.workers.set j (WSt.postRun u))[i]? = some (WSt.parked false)
        rw [List.getElem?_set_ne (Ne.symm hij)]
        exact hp
    | wDec s j u hw2 =>
      by_cases hij : i = j
      · subst hij
        exact absurd (hp.symm.trans hw2) (by simp)
      · show (s.workers.set j WSt.atLoop)[i]? = some (WSt.parked false)
        rw [List.getElem?_set_ne (Ne.symm hij)]
        exact hp

theorem c5_amended_witness :
    ({ c5sStuck with
        queue := ([] : List Nat)
        cleared := c5sStuck.cleared + c5sStuck.queue.length } : St).workers[0]?
      = some (WSt.parked false) :=
  c5_amended.2.2.2 Lbl.clear c5sStuck _ 0 (Step0.clear c5sStuck) (by decide)
    (by decide) (by decide)

theorem joinAllF_threadsCount (s : St) :
    (joinAllF s).threadsCount = s.threadsCount := by
  unfold joinAllF
  split <;> rfl

/-- C6: `addTask` appends the new task at the queue tail in every pool
state, Up or Down, incrementing `pending()` by exactly one and leaving
the liveness flag, running counter, thread container, cleared tally and
executed history unchanged; when Down it touches no worker, and when Up
it additionally performs one `notify_one`, which either changes nothing
(no worker is parked without a pending notification) or delivers a wakeup
to exactly one blocked waiter. -/
theorem c6_addTask {s s' : St} (h : Step .addTask s s') :
    s'.queue = s.queue ++ [s.nextTask] ∧
    pending s' = pending s + 1 ∧
    s'.alive = s.alive ∧ s'.running = s.running ∧
    s'.threadsPool = s.threadsPool ∧ s'.cleared = s.cleared ∧
    s'.executed = s.executed ∧
    (s.alive = false → s'.workers = s.workers) ∧
    (s.alive = true →
      s'.workers = notifyOne s.workers ∧
      (notifyOne s.workers = s.workers ∨
        ∃ i, s.workers[i]? = some (WSt.parked false) ∧
          notifyOne s.workers = s.workers.set i (WSt.parked true))) := by
  cases h with
  | addTask s =>
    refine ⟨rfl, ?_, rfl, rfl, rfl, rfl, rfl, ?_, ?_⟩
    · show (s.queue ++ [s.nextTask]).length = s.queue.length + 1
      simp
    · intro hal
      show (if s.alive = true then notifyOne s.workers else s.workers)
        = s.workers
      rw [if_neg (by simp [hal])]
    · intro hal
      refine ⟨?_, notifyOne_spec s.workers⟩
      show (if s.alive = true then notifyOne s.workers else s.workers)
        = notifyOne s.workers
      rw [if_pos hal]

theorem c6_addTask_witness : pending c3sB = pending (initSt 0) + 1 :=
  (c6_addTask (step_cast (Step.addTask (initSt 0)) (by decide) :
    Step Lbl.addTask (initSt 0) c3sB)).2.1

/-- C7: `start()` is a no-op when the pool is Up; when Down it performs
exactly the state change `joinAll()` would (its conditional `clean_up`,
enabled only when the leftover threads terminated), then sets the
liveness flag true and spawns exactly `threads_count_` fresh workers; in
the resulting state every worker outside the fresh thread set is
terminated, so no two live thread sets coexist. -/
theorem c7_start {n : Nat} {s s' : St} (hr : Reach (initSt n) s)
    (h : Step .start s s') :
    (s.alive = true → s' = s) ∧
    (s.alive = false →
      s'.alive = true ∧
      s'.threadsPool
        = (List.range s.threadsCount).map (· + s.workers.length) ∧
      s'.threadsPool.length = s.threadsCount ∧
      s'.workers = s.workers ++ List.replicate s.threadsCount WSt.atLoop ∧
      s' = spawnN { joinAllF s with alive := true } ∧
      (∀ (j : Nat) (st : WSt), s'.workers[j]? = some st →
          j ∉ s'.threadsPool → st = WSt.terminated)) := by
  have hI2 : Inv s' := inv_step (reach_inv (inv_init n) hr) h
  cases h with
  | start s hg =>
    refine ⟨?_, ?_⟩
    · intro hal
      show startF s = s
      unfold startF
      rw [if_pos hal]
    · intro hal
      have haln : ¬s.alive = true := by simp [hal]
      have hEq : startF s = spawnN { joinAllF s with alive := true } := by
        unfold startF joinAllF
        rw [if_neg haln]
        by_cases hp : s.threadsPool = []
        · rw [if_pos hp, if_neg (fun hc => hc.2 hp)]
        · rw [if_neg hp, if_pos ⟨hal, hp⟩]
      have hjp : (joinAllF s).threadsPool = [] := by
        unfold joinAllF
        by_cases hp : s.threadsPool = []
        · rw [if_neg (fun hc => hc.2 hp)]
          exact hp
        · rw [if_pos ⟨hal, hp⟩]
          rfl
      have hpool : (startF s).threadsPool
          = (List.range s.threadsCount).map (· + s.workers.length) := by
        rw [hEq]
        show (joinAllF s).threadsPool ++
            (List.range (joinAllF s).threadsCount).map
              (· + (joinAllF s).workers.length)
          = (List.range s.threadsCount).map (· + s.workers.length)
        rw [hjp, joinAllF_threadsCount, joinAllF_workers]
        simp
      refine ⟨?_, hpool, ?_, startF_workers_not_alive haln, hEq, hI2.2.2.1⟩
      · rw [hEq]
        rfl
      · rw [hpool]
        simp

theorem c7_start_witness : (startF (initSt 2)).alive = true :=
  ((c7_start (n := 2) Relation.ReflTransGen.refl
    (Step.start (initSt 2) (by decide))).2 rfl).1

/-- C8: every dequeue takes the queue head, and since the queue is
strictly increasing in submission order in every reachable state, the
dequeued task is the earliest-added task still in the queue: no
reordering and no priority. -/
theorem c8_fifo {n : Nat} {s s' : St} {i t : Nat}
    (hr : Reach (initSt n) s) (h : Step (.wClaim i t) s s') :
    s.queue.head? = some t ∧ s'.queue = s.queue.tail ∧
    (∀ u ∈ s.queue, t ≤ u) := by
  have hI := reach_inv (inv_init n) hr
  cases h with
  | wClaim s i t rest hw ha hq =>
    obtain ⟨_, _, _, hSort, _⟩ := hI
    rw [hq] at hSort
    refine ⟨by rw [hq]; rfl, by rw [hq]; rfl, ?_⟩
    intro u hu
    rw [hq] at hu
    rcases List.mem_cons.mp hu with h1 | h1
    · exact Nat.le_of_eq h1.symm
    · exact Nat.le_of_lt ((List.pairwise_cons.mp hSort).1 u h1)

theorem c8_fifo_witness : trState3.queue.head? = some 0 :=
  (c8_fifo reach_trState3
    (Step.wClaim trState3 0 0 [] (by decide) rfl rfl)).1

theorem untouched_step {t : Nat} {l : Lbl} {s s' : St} (h : Step l s s')
    (hu : Untouched t s) : Untouched t s' := by
  obtain ⟨hlt, hq, hsf, hex⟩ := hu
  cases h with
  | addTask s =>
    refine ⟨Nat.lt_succ_of_lt hlt, ?_, ?_, hex⟩
    · intro hc
      rcases List.mem_append.mp hc with h1 | h1
      · exact hq h1
      · simp only [List.mem_singleton] at h1
        omega
    · intro j st hj
      have hj2 : (if s.alive = true then notifyOne s.workers
          else s.workers)[j]? = some st := hj
      by_cases hal : s.alive = true
      · rw [if_pos hal] at hj2
        rcases notifyOne_pointwise _ _ _ hj2 with hold | ⟨hst, _⟩
        · exact hsf j st hold
        · subst hst
          simp [slotTask]
      · rw [if_neg hal] at hj2
        exact hsf j st hj2
  | clear s => exact ⟨hlt, by simp, hsf, hex⟩
  | stopFlag s => exact ⟨hlt, hq, hsf, hex⟩
  | notifyAll s =>
    refine ⟨hlt, hq, ?_, hex⟩
    intro j st hj
    have hj2 : (s.workers.map wakeAll)[j]? = some st := hj
    rw [List.getElem?_map] at hj2
    cases hb : s.workers[j]? with
    | none => rw [hb] at hj2; simp at hj2
    | some b =>
      rw [hb] at hj2
      simp only [Option.map_some', Option.some.injEq] at hj2
      subst hj2
      rw [wakeAll_slot]
      exact hsf j b hb
  | join s hg => exact ⟨hlt, hq, hsf, hex⟩
  | joinAll s hg =>
    unfold joinAllF
    split <;> exact ⟨hlt, hq, hsf, hex⟩
  | start s hg =>
    unfold startF
    by_cases hal : s.alive = true
    · rw [if_pos hal]
      exact ⟨hlt, hq, hsf, hex⟩
    · rw [if_neg hal]
      by_cases hpo : s.threadsPool = []
      · rw [if_pos hpo]
        refine ⟨hlt, hq, ?_, hex⟩
        intro j st hj
        have hj2 : (s.workers ++
            List.replicate s.threadsCount WSt.atLoop)[j]? = some st := hj
        rcases getElem_append_repl hj2 with ⟨_, hold⟩ | ⟨hst, _, _⟩
        · exact hsf j st hold
        · subst hst
          simp [slotTask]
      · rw [if_neg hpo]
        refine ⟨hlt, hq, ?_, hex⟩
        intro j st hj
        have hj2 : (s.workers ++
            List.replicate s.threadsCount WSt.atLoop)[j]? = some st := hj
        rcases getElem_append_repl hj2 with ⟨_, hold⟩ | ⟨hst, _, _⟩
        · exact hsf j st hold
        · subst hst
          simp [slotTask]
  | wLoopExit s i hw ha =>
    exact ⟨hlt, hq, slotFree_set hsf (by simp [slotTask]), hex⟩
  | wLoopEnter s i hw ha =>
    exact ⟨hlt, hq, slotFree_set hsf (by simp [slotTask]), hex⟩
  | wClaim s i u rest hw ha hqq =>
    have hut : u ≠ t := by
      intro heq
      subst heq
      exact hq (by rw [hqq]; simp)
    refine ⟨hlt, ?_, slotFree_set hsf (by simpa [slotTask] using hut), hex⟩
    intro hc
    apply hq
    rw [hqq]
    exact List.mem_cons_of_mem _ hc
  | wNotAlive s i hw ha =>
    exact ⟨hlt, hq, slotFree_set hsf (by simp [slotTask]), hex⟩
  | wPark s i hw ha hqq =>
    exact ⟨hlt, hq, slotFree_set hsf (by simp [slotTask]), hex⟩
  | wWake s i hw =>
    exact ⟨hlt, hq, slotFree_set hsf (by simp [slotTask]), hex⟩
  | wInc s i u hw =>
    exact ⟨hlt, hq, slotFree_set hsf (hsf i (WSt.claimed u) hw), hex⟩
  | wRun s i u hw =>
    have hne := hsf i (WSt.executing u) hw
    refine ⟨hlt, hq, slotFree_set hsf hne, ?_⟩
    intro hc
    rcases List.mem_append.mp hc with h1 | h1
    · exact hex h1
    · simp only [List.mem_singleton] at h1
      subst h1
      exact hne rfl
  | wDec s i u hw =>
    exact ⟨hlt, hq, slotFree_set hsf (by simp [slotTask]), hex⟩

theorem untouched_reach {t : Nat} {a b : St} (h : Reach a b)
    (hu : Untouched t a) : Untouched t b := by
  induction h with
  | refl => exact hu
  | tail _ hstep ih =>
    obtain ⟨l, hl⟩ := hstep
    exact untouched_step hl ih

/-- C9: `clear()` swaps in an empty queue, leaving `pending() = 0` and
adding the discarded count to the cleared tally, and changes nothing
else: the running counter, liveness flag, thread container, every
worker's control state (in particular every claimed task's local slot)
and the executed history are unchanged, so already claimed tasks proceed
exactly as without the `clear()`; and every task queued (hence unclaimed)
at that moment is never executed in any state reachable afterwards. -/
theorem c9_clear {n : Nat} {s s' : St} (hr : Reach (initSt n) s)
    (h : Step .clear s s') :
    s'.queue = [] ∧ pending s' = 0 ∧ s'.running = s.running ∧
    s'.alive = s.alive ∧ s'.threadsPool = s.threadsPool ∧
    s'.workers = s.workers ∧ s'.executed = s.executed ∧
    (∀ t ∈ s.queue, ∀ s2, Reach s' s2 → t ∉ s2.executed) := by
  have hI := reach_inv (inv_init n) hr
  cases h with
  | clear s =>
    refine ⟨rfl, rfl, rfl, rfl, rfl, rfl, rfl, ?_⟩
    intro t ht s2 h2
    obtain ⟨_, _, _, _, hQLt, _, _, hDisj⟩ := hI
    have hu : Untouched t
        { s with queue := [], cleared := s.cleared + s.queue.length } := by
      obtain ⟨hf, he⟩ := hDisj t ht
      exact ⟨hQLt t ht, by simp, hf, he⟩
    exact (untouched_reach h2 hu).2.2.2

theorem c9_clear_witness :
    (0 : Nat) ∉ ({ trState2 with
      queue := []
      cleared := trState2.cleared + trState2.queue.length } : St).executed :=
  (c9_clear reach_trState2 (Step.clear trState2)).2.2.2.2.2.2.2 0 (by decide)
    _ Relation.ReflTransGen.refl

theorem c10_aux {l : Lbl} {s s' : St} (h : Step l s s')
    (hp : s.threadsCount = 0 ∧ s.workers = [] ∧ s.executed = [] ∧
      s.nextTask = s.queue.length + s.cleared) :
    s'.threadsCount = 0 ∧ s'.workers = [] ∧ s'.executed = [] ∧
      s'.nextTask = s'.queue.length + s'.cleared := by
  obtain ⟨htc, hw, he, hn⟩ := hp
  cases h with
  | addTask s =>
    refine ⟨htc, ?_, he, ?_⟩
    · show (if s.alive = true then notifyOne s.workers else s.workers) = []
      rw [hw]
      by_cases hal : s.alive = true
      · rw [if_pos hal]
        rfl
      · rw [if_neg hal]
    · show s.nextTask + 1 = (s.queue ++ [s.nextTask]).length + s.cleared
      simp only [List.length_append, List.length_cons, List.length_nil]
      omega
  | clear s =>
    refine ⟨htc, hw, he, ?_⟩
    show s.nextTask = ([] : List Nat).length + (s.cleared + s.queue.length)
    simp only [List.length_nil]
    omega
  | stopFlag s => exact ⟨htc, hw, he, hn⟩
  | notifyAll s =>
    refine ⟨htc, ?_, he, hn⟩
    show s.workers.map wakeAll = []
    rw [hw]
    rfl
  | join s hg => exact ⟨htc, hw, he, hn⟩
  | joinAll s hg =>
    unfold joinAllF
    split <;> exact ⟨htc, hw, he, hn⟩
  | start s hg =>
    unfold startF
    by_cases hal : s.alive = true
    · rw [if_pos hal]
      exact ⟨htc, hw, he, hn⟩
    · rw [if_neg hal]
      by_cases hpo : s.threadsPool = []
      · rw [if_pos hpo]
        refine ⟨htc, ?_, he, hn⟩
        show s.workers ++ List.replicate s.threadsCount WSt.atLoop = []
        rw [hw, htc]
        rfl
      · rw [if_neg hpo]
        refine ⟨htc, ?_, he, hn⟩
        show s.workers ++ List.replicate s.threadsCount WSt.atLoop = []
        rw [hw, htc]
        rfl
  | wLoopExit s i hwk ha => rw [hw] at hwk; simp at hwk
  | wLoopEnter s i hwk ha => rw [hw] at hwk; simp at hwk
  | wClaim s i u rest hwk ha hqq => rw [hw] at hwk; simp at hwk
  | wNotAlive s i hwk ha => rw [hw] at hwk; simp at hwk
  | wPark s i hwk ha hqq => rw [hw] at hwk; simp at hwk
  | wWake s i hwk => rw [hw] at hwk; simp at hwk
  | wInc s i u hwk => rw [hw] at hwk; simp at hwk
  | wRun s i u hwk => rw [hw] at hwk; simp at hwk
  | wDec s i u hwk => rw [hw] at hwk; simp at hwk

/-- C10: the constructor performs no validation of `threads_count`:
`ThreadPool(0)` is accepted, Down, with `pending() = 0` and
`running() = 0`; `start()` on it reports `UP` while spawning zero worker
threads; and in every reachable state of such a pool no worker ever
exists and no task is ever executed — every submitted task is still
queued or was cleared, never claimed, even though the pool reports Up. -/
theorem c10_zero_threads :
    status (initSt 0) = STATUS.DOWN ∧ pending (initSt 0) = 0 ∧
    (initSt 0).running = 0 ∧
    status (startF (initSt 0)) = STATUS.UP ∧
    (startF (initSt 0)).workers = [] ∧
    (startF (initSt 0)).threadsPool = [] ∧
    (∀ s, Reach (initSt 0) s → s.workers = [] ∧ s.executed = [] ∧
        s.nextTask = pending s + s.cleared) := by
  refine ⟨by decide, by decide, by decide, by decide, by decide, by decide,
    ?_⟩
  intro s h
  have haux : s.threadsCount = 0 ∧ s.workers = [] ∧ s.executed = [] ∧
      s.nextTask = s.queue.length + s.cleared := by
    induction h with
    | refl => exact ⟨rfl, rfl, rfl, rfl⟩
    | tail _ hstep ih =>
      obtain ⟨l, hl⟩ := hstep
      exact c10_aux hl ih
  exact ⟨haux.2.1, haux.2.2.1, haux.2.2.2⟩

theorem c10_zero_threads_witness : (initSt 0).workers = [] :=
  (c10_zero_threads.2.2.2.2.2.2 (initSt 0) Relation.ReflTransGen.refl).1

end ThreadPoolModel
